import Mathlib

/-!
Verification of the property-term filter of the Polymer-data-extraction
repository (`filters/filter_by_property_terms.py`).

Python strings are modelled as lists of Unicode codepoints (`PyStr`); the
ASCII behaviour of `str.lower`, `str.strip` and the `re` word classes is
embedded exactly (the filter's lexicons, regexes and unit vocabulary are
ASCII apart from the degree sign and the middle dot, which are not letters,
digits, whitespace or word characters in Python either, so the embedding of
the characters that occur is exact).  Dictionaries are association lists in
insertion order, matching Python's dict semantics; `set` becomes `Finset`.
-/

/-- A Python string: its list of Unicode codepoints. -/
abbrev PyStr := List Nat

/-- Codepoints of a Lean string literal, for writing concrete inputs. -/
def pstr (s : String) : PyStr := s.data.map Char.toNat

/-- `str.lower` on one codepoint (ASCII range, as every character that the
filter's data and lexicons contain). -/
def lowerC (c : Nat) : Nat := if 65 ≤ c ∧ c ≤ 90 then c + 32 else c

/-- `str.lower`. -/
def lowerS (s : PyStr) : PyStr := s.map lowerC

/-- The whitespace class of `str.strip` and of `re` (`\s`): space, tab,
newline, carriage return, vertical tab, form feed. -/
def isSpaceC (c : Nat) : Bool := c = 32 ∨ c = 9 ∨ c = 10 ∨ c = 13 ∨ c = 11 ∨ c = 12

/-- Drop trailing whitespace (the right half of `str.strip`). -/
def dropTrailing : PyStr → PyStr
  | [] => []
  | c :: rest =>
    if dropTrailing rest = [] ∧ isSpaceC c then [] else c :: dropTrailing rest

/-- `str.strip`: leading and trailing whitespace removed. -/
def stripS (s : PyStr) : PyStr := dropTrailing (s.dropWhile isSpaceC)

/-- `\d` of `re`. -/
def isDigit (c : Nat) : Bool := 48 ≤ c ∧ c ≤ 57

/-- `[A-Z]` of `re`. -/
def isUpper (c : Nat) : Bool := 65 ≤ c ∧ c ≤ 90

/-- The sentence-ending characters `.`, `!`, `?` of `_split_into_sentences`. -/
def isSentEnd (c : Nat) : Bool := c = 46 ∨ c = 33 ∨ c = 63

/-- `\w` of `re` on the characters the filter handles. -/
def isWordChar (c : Nat) : Bool :=
  (48 ≤ c ∧ c ≤ 57) ∨ (65 ≤ c ∧ c ≤ 90) ∨ (97 ≤ c ∧ c ≤ 122) ∨ c = 95

/- ### Elementary facts about the character-level operations -/

theorem lowerC_of_upper {c : Nat} (h1 : 65 ≤ c) (h2 : c ≤ 90) : lowerC c = c + 32 := by
  unfold lowerC
  rw [if_pos ⟨h1, h2⟩]

theorem lowerC_of_other {c : Nat} (h : ¬(65 ≤ c ∧ c ≤ 90)) : lowerC c = c := by
  unfold lowerC
  rw [if_neg h]

theorem lowerC_lowerC (c : Nat) : lowerC (lowerC c) = lowerC c := by
  by_cases h : 65 ≤ c ∧ c ≤ 90
  · rw [lowerC_of_upper h.1 h.2, lowerC_of_other (by omega)]
  · rw [lowerC_of_other h, lowerC_of_other h]

theorem lowerS_lowerS (s : PyStr) : lowerS (lowerS s) = lowerS s := by
  unfold lowerS
  rw [List.map_map]
  exact List.map_congr_left fun c _ => lowerC_lowerC c

theorem isSpaceC_lowerC (c : Nat) : isSpaceC (lowerC c) = isSpaceC c := by
  by_cases h : 65 ≤ c ∧ c ≤ 90
  · rw [lowerC_of_upper h.1 h.2]
    unfold isSpaceC
    exact decide_eq_decide.2 (by omega)
  · rw [lowerC_of_other h]

theorem length_dropWhile_le (p : Nat → Bool) (s : PyStr) :
    (s.dropWhile p).length ≤ s.length := by
  induction s with
  | nil => simp
  | cons c rest ih =>
    rw [List.dropWhile_cons]
    split
    · simp only [List.length_cons]
      omega
    · simp

theorem lowerS_length (s : PyStr) : (lowerS s).length = s.length := by
  simp [lowerS]

theorem dropWhile_lowerS (s : PyStr) :
    (lowerS s).dropWhile isSpaceC = lowerS (s.dropWhile isSpaceC) := by
  induction s with
  | nil => rfl
  | cons c rest ih =>
    by_cases h : isSpaceC c
    · simp [lowerS, List.dropWhile_cons, isSpaceC_lowerC, h] at *
      exact ih
    · simp [lowerS, List.dropWhile_cons, isSpaceC_lowerC, h]

theorem dropTrailing_lowerS (s : PyStr) :
    dropTrailing (lowerS s) = lowerS (dropTrailing s) := by
  induction s with
  | nil => rfl
  | cons c rest ih =>
    show dropTrailing (lowerC c :: lowerS rest) = lowerS (dropTrailing (c :: rest))
    rw [dropTrailing, dropTrailing, ih]
    by_cases hr : dropTrailing rest = []
    · simp [hr, lowerS, isSpaceC_lowerC]
      by_cases hc : isSpaceC c = true <;> simp [hc, lowerS]
    · have : lowerS (dropTrailing rest) ≠ [] := by
        simpa [lowerS] using hr
      simp [hr, this, lowerS]

theorem stripS_lowerS (s : PyStr) : stripS (lowerS s) = lowerS (stripS s) := by
  unfold stripS
  rw [dropWhile_lowerS, dropTrailing_lowerS]

theorem dropWhile_isSpaceC_dropWhile (s : PyStr) :
    (s.dropWhile isSpaceC).dropWhile isSpaceC = s.dropWhile isSpaceC := by
  induction s with
  | nil => rfl
  | cons c rest ih =>
    by_cases h : isSpaceC c
    · simp [List.dropWhile_cons, h] at *; exact ih
    · simp [List.dropWhile_cons, h]

theorem dropTrailing_dropTrailing (s : PyStr) :
    dropTrailing (dropTrailing s) = dropTrailing s := by
  induction s with
  | nil => rfl
  | cons c rest ih =>
    by_cases hr : dropTrailing rest = [] ∧ isSpaceC c
    · have h0 : dropTrailing (c :: rest) = [] := by rw [dropTrailing, if_pos hr]
      rw [h0]
      rfl
    · have h0 : dropTrailing (c :: rest) = c :: dropTrailing rest := by
        rw [dropTrailing, if_neg hr]
      rw [h0, dropTrailing, ih, if_neg hr]

theorem dropWhile_dropTrailing (s : PyStr) (h : s.dropWhile isSpaceC = s) :
    (dropTrailing s).dropWhile isSpaceC = dropTrailing s := by
  cases s with
  | nil => rfl
  | cons c rest =>
    have hc : isSpaceC c = false := by
      by_contra hcc
      have hct : isSpaceC c = true := by revert hcc; cases isSpaceC c <;> simp
      rw [List.dropWhile_cons, if_pos hct] at h
      have hlen := length_dropWhile_le isSpaceC rest
      rw [h] at hlen
      simp at hlen
    rw [dropTrailing]
    by_cases hr : dropTrailing rest = [] ∧ isSpaceC c
    · rw [if_pos hr]
      rfl
    · rw [if_neg hr, List.dropWhile_cons, hc]
      simp

theorem stripS_stripS (s : PyStr) : stripS (stripS s) = stripS s := by
  unfold stripS
  rw [dropWhile_dropTrailing _ (dropWhile_isSpaceC_dropWhile s),
      dropTrailing_dropTrailing]

theorem dropTrailing_length_le (s : PyStr) : (dropTrailing s).length ≤ s.length := by
  induction s with
  | nil => simp [dropTrailing]
  | cons c rest ih =>
    rw [dropTrailing]
    split
    · simp
    · simpa using ih

theorem dropTrailing_eq_self_of_length (s : PyStr)
    (h : (dropTrailing s).length = s.length) : dropTrailing s = s := by
  induction s with
  | nil => rfl
  | cons c rest ih =>
    rw [dropTrailing] at h ⊢
    by_cases hr : dropTrailing rest = [] ∧ isSpaceC c
    · rw [if_pos hr] at h
      simp at h
    · rw [if_neg hr] at h ⊢
      simp only [List.length_cons, Nat.add_right_cancel_iff] at h
      rw [ih h]

theorem dropWhile_eq_self_of_length (s : PyStr)
    (h : (s.dropWhile isSpaceC).length = s.length) : s.dropWhile isSpaceC = s := by
  cases s with
  | nil => rfl
  | cons c rest =>
    by_cases hc : isSpaceC c
    · rw [List.dropWhile_cons, if_pos hc] at h
      have := length_dropWhile_le isSpaceC rest
      simp at h
      omega
    · rw [List.dropWhile_cons, if_neg hc]

theorem stripS_eq_self_of_length (s : PyStr)
    (h : (stripS s).length = s.length) : stripS s = s := by
  unfold stripS at h ⊢
  have h1 : (dropTrailing (s.dropWhile isSpaceC)).length ≤ (s.dropWhile isSpaceC).length :=
    dropTrailing_length_le _
  have h2 : (s.dropWhile isSpaceC).length ≤ s.length := length_dropWhile_le _ _
  have hds : (s.dropWhile isSpaceC).length = s.length := by omega
  have hd : s.dropWhile isSpaceC = s := dropWhile_eq_self_of_length s hds
  rw [hd] at h ⊢
  exact dropTrailing_eq_self_of_length s (by omega)

/-- If the lowercased form of `m` is already stripped, so is `m` itself. -/
theorem stripS_eq_self_of_lower (m : PyStr) (h : stripS (lowerS m) = lowerS m) :
    stripS m = m := by
  rw [stripS_lowerS] at h
  have : (lowerS (stripS m)).length = (lowerS m).length := by rw [h]
  rw [lowerS_length, lowerS_length] at this
  exact stripS_eq_self_of_length m this

/- ### Dictionaries as association lists (Python dict semantics) -/

/-- `dict.get`: the value of the first binding of `k`, if any. -/
def alookup {β : Type} : List (PyStr × β) → PyStr → Option β
  | [], _ => none
  | (k, v) :: rest, key => if key = k then some v else alookup rest key

/-- `d[k] = v` on a Python dict: an existing key keeps its position and gets
the new value, a new key is appended. -/
def dictInsert {β : Type} (l : List (PyStr × β)) (k : PyStr) (v : β) : List (PyStr × β) :=
  if (alookup l k).isSome then l.map (fun p => if p.1 = k then (k, v) else p) else l ++ [(k, v)]

/-- The keys of an association list, in order. -/
def keysOf {β : Type} (l : List (PyStr × β)) : List PyStr := l.map Prod.fst

theorem alookup_append {β : Type} (l l' : List (PyStr × β)) (k : PyStr) :
    alookup (l ++ l') k = match alookup l k with
      | some v => some v
      | none => alookup l' k := by
  induction l with
  | nil => rfl
  | cons p rest ih =>
    rw [List.cons_append, alookup, alookup]
    by_cases h : k = p.1
    · simp [h]
    · simp only [h, if_false]
      exact ih

theorem alookup_eq_none_iff {β : Type} (l : List (PyStr × β)) (k : PyStr) :
    alookup l k = none ↔ k ∉ keysOf l := by
  induction l with
  | nil => simp [alookup, keysOf]
  | cons p rest ih =>
    rw [alookup, keysOf, List.map_cons]
    by_cases h : k = p.1
    · simp [h]
    · simp only [h, if_false, List.mem_cons]
      rw [ih, keysOf]
      simp [h]

theorem alookup_mem {β : Type} (l : List (PyStr × β)) (k : PyStr) (v : β)
    (h : alookup l k = some v) : (k, v) ∈ l := by
  induction l with
  | nil => simp [alookup] at h
  | cons p rest ih =>
    obtain ⟨k0, v0⟩ := p
    rw [alookup] at h
    by_cases hk : k = k0
    · rw [if_pos hk] at h
      injection h with hv
      rw [hk, ← hv]
      exact List.mem_cons_self _ _
    · rw [if_neg hk] at h
      exact List.mem_cons_of_mem _ (ih h)

theorem alookup_of_mem_nodup {β : Type} (l : List (PyStr × β)) (k : PyStr) (v : β)
    (hn : (keysOf l).Nodup) (h : (k, v) ∈ l) : alookup l k = some v := by
  induction l with
  | nil => simp at h
  | cons p rest ih =>
    rw [keysOf, List.map_cons, List.nodup_cons] at hn
    rcases List.mem_cons.1 h with h1 | h1
    · rw [← h1, alookup, if_pos rfl]
    · rw [alookup]
      have hk : k ≠ p.1 := by
        intro he
        exact hn.1 (he ▸ (List.mem_map.2 ⟨(k, v), h1, rfl⟩))
      rw [if_neg hk]
      exact ih hn.2 h1

/- ### The synonym data and `_build_property_search_terms` -/

/-- The shape of `polymer_synonyms.json` after `_load_polymer_synonyms`:
category name mapped to a dict from canonical term to its synonym list.
(The loader's `isinstance` guards only drop entries this type cannot hold.) -/
abbrev SynData := List (PyStr × List (PyStr × List PyStr))

/-- The category flattening at the top of `_build_property_search_terms`:
`all_mappings[canonical] = [s for s in syn_list if isinstance(s, str)]`
accumulated over every category in order. -/
def flattenMappings (synonymsData : SynData) : List (PyStr × List PyStr) :=
  synonymsData.foldl
    (fun am cat => cat.2.foldl (fun am2 e => dictInsert am2 e.1 e.2) am) []

/-- One iteration of the `term_to_canonical` construction loop:
`canonical.lower()` and then each `s.lower()` claim the canonical, each only
if the lowercase string is not bound yet (first match wins). -/
def indexStep (idx : List (PyStr × PyStr)) (entry : PyStr × List PyStr) :
    List (PyStr × PyStr) :=
  entry.2.foldl
    (fun idx2 s =>
      if (alookup idx2 (lowerS s)).isSome then idx2 else idx2 ++ [(lowerS s, entry.1)])
    (if (alookup idx (lowerS entry.1)).isSome then idx
     else idx ++ [(lowerS entry.1, entry.1)])

/-- The inverted index `term_to_canonical`, built over `all_mappings` in
order. -/
def termToCanonical (allMappings : List (PyStr × List PyStr)) : List (PyStr × PyStr) :=
  allMappings.foldl indexStep []

/-- What one requested term (already trimmed and lowercased) contributes to
the search-term set: `canonical = term_to_canonical.get(req)`; a truthy
canonical contributes `{canonical} | set(all_mappings.get(canonical, []))`,
otherwise the literal `req` is contributed (`search_terms.add(req)`).
Python's `if canonical:` is false both for a missing key and for the empty
string. -/
def termGroup (allMappings : List (PyStr × List PyStr)) (idx : List (PyStr × PyStr))
    (req : PyStr) : Finset PyStr :=
  match alookup idx req with
  | some c => if c = [] then {req} else insert c ((alookup allMappings c).getD []).toFinset
  | none => {req}

/-- `_build_property_search_terms(requested, synonyms_data)`: the requested
terms are trimmed, lowercased and the empty ones dropped
(`[r.strip().lower() for r in requested if r.strip()]`), and each one
contributes its `termGroup` to the accumulated set. -/
def buildPropertySearchTerms (requested : List PyStr) (synonymsData : SynData) :
    Finset PyStr :=
  ((requested.filter (fun r => !(stripS r).isEmpty)).map (fun r => lowerS (stripS r))).foldl
    (fun st req =>
      st ∪ termGroup (flattenMappings synonymsData)
        (termToCanonical (flattenMappings synonymsData)) req) ∅

/- ### Facts about the index construction and the expansion -/

theorem alookup_isSome_ne_none {β : Type} {l : List (PyStr × β)} {k : PyStr}
    (h : ¬(alookup l k).isSome = true) : alookup l k = none := by
  cases hl : alookup l k
  · rfl
  · rw [hl] at h
    simp at h

theorem nodupKeys_append {β : Type} (l : List (PyStr × β)) (k0 : PyStr) (v0 : β)
    (hn : (keysOf l).Nodup) (habs : alookup l k0 = none) :
    (keysOf (l ++ [(k0, v0)])).Nodup := by
  unfold keysOf
  rw [List.map_append]
  simp only [List.map_cons, List.map_nil]
  rw [List.nodup_append]
  refine ⟨hn, List.nodup_singleton _, ?_⟩
  intro x hx hx1
  rw [List.mem_singleton] at hx1
  exact ((alookup_eq_none_iff l k0).1 habs) (hx1 ▸ hx)

theorem keysOf_dictInsert_nodup {β : Type} (l : List (PyStr × β)) (k : PyStr) (v : β)
    (h : (keysOf l).Nodup) : (keysOf (dictInsert l k v)).Nodup := by
  unfold dictInsert
  by_cases hs : (alookup l k).isSome
  · rw [if_pos hs]
    have heq : keysOf (l.map fun p => if p.1 = k then (k, v) else p) = keysOf l := by
      unfold keysOf
      rw [List.map_map]
      apply List.map_congr_left
      intro p _
      by_cases hp : p.1 = k
      · simp [hp]
      · simp [hp]
    rw [heq]
    exact h
  · rw [if_neg hs]
    exact nodupKeys_append l k v h (alookup_isSome_ne_none hs)

theorem flattenMappings_inner_nodup (entries : List (PyStr × List PyStr))
    (am : List (PyStr × List PyStr)) (h : (keysOf am).Nodup) :
    (keysOf (entries.foldl (fun am2 e => dictInsert am2 e.1 e.2) am)).Nodup := by
  induction entries generalizing am with
  | nil => exact h
  | cons e rest ih =>
    rw [List.foldl_cons]
    exact ih _ (keysOf_dictInsert_nodup am e.1 e.2 h)

theorem flattenMappings_keys_nodup (d : SynData) :
    (keysOf (flattenMappings d)).Nodup := by
  unfold flattenMappings
  suffices h : ∀ (cats : SynData) (am : List (PyStr × List PyStr)), (keysOf am).Nodup →
      (keysOf (cats.foldl
        (fun am cat => cat.2.foldl (fun am2 e => dictInsert am2 e.1 e.2) am) am)).Nodup by
    exact h d [] List.nodup_nil
  intro cats
  induction cats with
  | nil => exact fun am h => h
  | cons c rest ih =>
    intro am h
    rw [List.foldl_cons]
    exact ih _ (flattenMappings_inner_nodup c.2 am h)

theorem inner_fold_preserve (canonical : PyStr) (syns : List PyStr)
    (idx : List (PyStr × PyStr)) (k c : PyStr) (h : alookup idx k = some c) :
    alookup (syns.foldl
      (fun idx2 s =>
        if (alookup idx2 (lowerS s)).isSome then idx2
        else idx2 ++ [(lowerS s, canonical)]) idx) k = some c := by
  induction syns generalizing idx with
  | nil => exact h
  | cons s rest ih =>
    rw [List.foldl_cons]
    apply ih
    by_cases hs : (alookup idx (lowerS s)).isSome
    · rw [if_pos hs]
      exact h
    · rw [if_neg hs, alookup_append, h]

theorem indexStep_preserve (idx : List (PyStr × PyStr)) (entry : PyStr × List PyStr)
    (k c : PyStr) (h : alookup idx k = some c) :
    alookup (indexStep idx entry) k = some c := by
  unfold indexStep
  apply inner_fold_preserve
  by_cases hs : (alookup idx (lowerS entry.1)).isSome
  · rw [if_pos hs]
    exact h
  · rw [if_neg hs, alookup_append, h]

theorem foldl_indexStep_preserve (entries : List (PyStr × List PyStr))
    (idx : List (PyStr × PyStr)) (k c : PyStr) (h : alookup idx k = some c) :
    alookup (entries.foldl indexStep idx) k = some c := by
  induction entries generalizing idx with
  | nil => exact h
  | cons e rest ih =>
    rw [List.foldl_cons]
    exact ih _ (indexStep_preserve idx e k c h)

theorem inner_fold_nodup (canonical : PyStr) (syns : List PyStr)
    (idx : List (PyStr × PyStr)) (h : (keysOf idx).Nodup) :
    (keysOf (syns.foldl
      (fun idx2 s =>
        if (alookup idx2 (lowerS s)).isSome then idx2
        else idx2 ++ [(lowerS s, canonical)]) idx)).Nodup := by
  induction syns generalizing idx with
  | nil => exact h
  | cons s rest ih =>
    rw [List.foldl_cons]
    apply ih
    by_cases hs : (alookup idx (lowerS s)).isSome
    · rw [if_pos hs]
      exact h
    · rw [if_neg hs]
      exact nodupKeys_append idx _ _ h (alookup_isSome_ne_none hs)

theorem indexStep_nodup (idx : List (PyStr × PyStr)) (entry : PyStr × List PyStr)
    (h : (keysOf idx).Nodup) : (keysOf (indexStep idx entry)).Nodup := by
  unfold indexStep
  apply inner_fold_nodup
  by_cases hs : (alookup idx (lowerS entry.1)).isSome
  · rw [if_pos hs]
    exact h
  · rw [if_neg hs]
    exact nodupKeys_append idx _ _ h (alookup_isSome_ne_none hs)

theorem termToCanonical_keys_nodup (am : List (PyStr × List PyStr)) :
    (keysOf (termToCanonical am)).Nodup := by
  unfold termToCanonical
  suffices h : ∀ (entries : List (PyStr × List PyStr)) (idx : List (PyStr × PyStr)),
      (keysOf idx).Nodup → (keysOf (entries.foldl indexStep idx)).Nodup by
    exact h am [] List.nodup_nil
  intro entries
  induction entries with
  | nil => exact fun idx h => h
  | cons e rest ih =>
    intro idx h
    rw [List.foldl_cons]
    exact ih _ (indexStep_nodup idx e h)

/-- Invariant of the index construction: every binding `k ↦ c` of the index
comes from the canonical `c` itself or from one of the synonyms listed for
`c` in `all_mappings`, lowercased. -/
def IdxInv (am : List (PyStr × List PyStr)) (idx : List (PyStr × PyStr)) : Prop :=
  ∀ k c, alookup idx k = some c →
    ∃ syns, alookup am c = some syns ∧ (k = lowerS c ∨ ∃ s ∈ syns, k = lowerS s)

theorem idxInv_append (am : List (PyStr × List PyStr)) (idx : List (PyStr × PyStr))
    (k0 c0 : PyStr) (h : IdxInv am idx)
    (hnew : ∃ syns, alookup am c0 = some syns ∧
      (k0 = lowerS c0 ∨ ∃ s ∈ syns, k0 = lowerS s)) :
    IdxInv am (idx ++ [(k0, c0)]) := by
  intro k c hk
  rw [alookup_append] at hk
  cases hl : alookup idx k with
  | some v =>
    rw [hl] at hk
    cases hk
    exact h k c hl
  | none =>
    rw [hl] at hk
    rw [alookup] at hk
    by_cases he : k = k0
    · rw [if_pos he] at hk
      cases hk
      exact he ▸ hnew
    · rw [if_neg he] at hk
      cases hk

theorem idxInv_inner (am : List (PyStr × List PyStr)) (c0 : PyStr)
    (syns0 full : List PyStr) (hsub : ∀ s ∈ syns0, s ∈ full)
    (hc0 : alookup am c0 = some full) (idx : List (PyStr × PyStr)) (h : IdxInv am idx) :
    IdxInv am (syns0.foldl
      (fun idx2 s =>
        if (alookup idx2 (lowerS s)).isSome then idx2
        else idx2 ++ [(lowerS s, c0)]) idx) := by
  induction syns0 generalizing idx with
  | nil => exact h
  | cons s rest ih =>
    rw [List.foldl_cons]
    apply ih (fun x hx => hsub x (List.mem_cons_of_mem _ hx))
    by_cases hs : (alookup idx (lowerS s)).isSome
    · rw [if_pos hs]
      exact h
    · rw [if_neg hs]
      exact idxInv_append am idx _ c0 h
        ⟨full, hc0, Or.inr ⟨s, hsub s (List.mem_cons_self _ _), rfl⟩⟩

theorem idxInv_step (am : List (PyStr × List PyStr)) (hn : (keysOf am).Nodup)
    (entry : PyStr × List PyStr) (hmem : entry ∈ am) (idx : List (PyStr × PyStr))
    (h : IdxInv am idx) : IdxInv am (indexStep idx entry) := by
  unfold indexStep
  have hc : alookup am entry.1 = some entry.2 :=
    alookup_of_mem_nodup am entry.1 entry.2 hn (by cases entry; exact hmem)
  apply idxInv_inner am entry.1 entry.2 entry.2 (fun s hs => hs) hc
  by_cases hs : (alookup idx (lowerS entry.1)).isSome
  · rw [if_pos hs]
    exact h
  · rw [if_neg hs]
    exact idxInv_append am idx _ entry.1 h ⟨entry.2, hc, Or.inl rfl⟩

theorem termToCanonical_spec (am : List (PyStr × List PyStr))
    (hn : (keysOf am).Nodup) : IdxInv am (termToCanonical am) := by
  unfold termToCanonical
  suffices h : ∀ (entries : List (PyStr × List PyStr)), (∀ e ∈ entries, e ∈ am) →
      ∀ idx, IdxInv am idx → IdxInv am (entries.foldl indexStep idx) by
    apply h am (fun e he => he) []
    intro k c hk
    rw [alookup] at hk
    cases hk
  intro entries
  induction entries with
  | nil => exact fun _ idx h => h
  | cons e rest ih =>
    intro hsub idx h
    rw [List.foldl_cons]
    exact ih (fun x hx => hsub x (List.mem_cons_of_mem _ hx)) _
      (idxInv_step am hn e (hsub e (List.mem_cons_self _ _)) idx h)

theorem mem_foldl_union {α : Type} [DecidableEq α] (g : PyStr → Finset α)
    (l : List PyStr) (init : Finset α) (t : α) :
    t ∈ l.foldl (fun st req => st ∪ g req) init ↔ t ∈ init ∨ ∃ req ∈ l, t ∈ g req := by
  induction l generalizing init with
  | nil => simp
  | cons r rest ih =>
    rw [List.foldl_cons, ih]
    simp [Finset.mem_union, or_assoc]

/-- Membership in the expanded search-term set, element by element. -/
theorem mem_buildPropertySearchTerms (requested : List PyStr) (d : SynData) (t : PyStr) :
    t ∈ buildPropertySearchTerms requested d ↔
      ∃ r ∈ requested, stripS r ≠ [] ∧
        t ∈ termGroup (flattenMappings d) (termToCanonical (flattenMappings d))
          (lowerS (stripS r)) := by
  unfold buildPropertySearchTerms
  rw [mem_foldl_union]
  simp only [Finset.not_mem_empty, false_or]
  constructor
  · rintro ⟨req, hreq, ht⟩
    rw [List.mem_map] at hreq
    obtain ⟨r, hr, hrq⟩ := hreq
    rw [List.mem_filter] at hr
    refine ⟨r, hr.1, ?_, hrq ▸ ht⟩
    have h2 := hr.2
    simp only [Bool.not_eq_true', List.isEmpty_eq_false] at h2
    exact h2
  · rintro ⟨r, hr, hs, ht⟩
    refine ⟨lowerS (stripS r), List.mem_map.2 ⟨r, List.mem_filter.2 ⟨hr, ?_⟩, rfl⟩, ht⟩
    simp only [Bool.not_eq_true', List.isEmpty_eq_false]
    exact hs

theorem termGroup_none {am : List (PyStr × List PyStr)} {idx : List (PyStr × PyStr)}
    {req : PyStr} (h : alookup idx req = none) : termGroup am idx req = {req} := by
  simp [termGroup, h]

theorem termGroup_empty {am : List (PyStr × List PyStr)} {idx : List (PyStr × PyStr)}
    {req : PyStr} (h : alookup idx req = some []) : termGroup am idx req = {req} := by
  simp [termGroup, h]

theorem termGroup_some {am : List (PyStr × List PyStr)} {idx : List (PyStr × PyStr)}
    {req c : PyStr} (h : alookup idx req = some c) (hc : c ≠ []) :
    termGroup am idx req = insert c ((alookup am c).getD []).toFinset := by
  simp [termGroup, h, hc]

/-- A synonym graph for concrete checks: one category, canonical `Tg` with
the synonym `glass transition`. -/
def exSynData : SynData := [(pstr "_properties", [(pstr "Tg", [pstr "glass transition"])])]

/-- C1 counterexample: expanding the requested term `tg` puts the canonical
`Tg` into the search-term set verbatim, and `Tg` is not lowercase. -/
theorem expansion_lowercase_counterexample :
    pstr "Tg" ∈ buildPropertySearchTerms [pstr "tg"] exSynData ∧
      lowerS (pstr "Tg") ≠ pstr "Tg" := by
  constructor
  · decide
  · decide

/-- C1 as amended: every string in the expanded set is either the
trimmed-and-lowercased form of a requested term (in particular every
unresolved requested term is added lowercased), or a canonical term or one
of its listed synonyms taken verbatim from the flattened synonym graph
(not lowercased). -/
theorem expansion_terms_source (R : List PyStr) (G : SynData) (t : PyStr)
    (ht : t ∈ buildPropertySearchTerms R G) :
    (∃ r ∈ R, t = lowerS (stripS r)) ∨
      (∃ c syns, alookup (flattenMappings G) c = some syns ∧ (t = c ∨ t ∈ syns)) := by
  rcases (mem_buildPropertySearchTerms R G t).1 ht with ⟨r, hrR, hstrip, hgrp⟩
  cases hidx : alookup (termToCanonical (flattenMappings G)) (lowerS (stripS r)) with
  | none =>
    rw [termGroup_none hidx, Finset.mem_singleton] at hgrp
    exact Or.inl ⟨r, hrR, hgrp⟩
  | some c =>
    by_cases hc : c = []
    · subst hc
      rw [termGroup_empty hidx, Finset.mem_singleton] at hgrp
      exact Or.inl ⟨r, hrR, hgrp⟩
    · rw [termGroup_some hidx hc] at hgrp
      obtain ⟨syns, hsy, _⟩ :=
        termToCanonical_spec _ (flattenMappings_keys_nodup G) _ c hidx
      refine Or.inr ⟨c, syns, hsy, ?_⟩
      rw [Finset.mem_insert] at hgrp
      rcases hgrp with h1 | h1
      · exact Or.inl h1
      · right
        rw [hsy] at h1
        simp only [Option.getD_some] at h1
        exact List.mem_toFinset.1 h1

theorem expansion_terms_source_witness :
    pstr "Tg" ∈ buildPropertySearchTerms [pstr "tg"] exSynData ∧
      ((∃ r ∈ [pstr "tg"], pstr "Tg" = lowerS (stripS r)) ∨
        (∃ c syns, alookup (flattenMappings exSynData) c = some syns ∧
          (pstr "Tg" = c ∨ pstr "Tg" ∈ syns))) :=
  ⟨by decide, expansion_terms_source [pstr "tg"] exSynData (pstr "Tg") (by decide)⟩

/-- C2: the expanded set contains the trimmed-and-lowercased form of every
requested term with no index entry, and for every requested term whose
lookup resolves (to a canonical, which in the code's truthiness test is a
non-empty string) it contains the canonical and all its listed synonyms. -/
theorem expansion_superset (G : SynData) (R : List PyStr) (r : PyStr)
    (hr : r ∈ R) (hs : stripS r ≠ []) :
    (alookup (termToCanonical (flattenMappings G)) (lowerS (stripS r)) = none →
      lowerS (stripS r) ∈ buildPropertySearchTerms R G) ∧
    (∀ c, alookup (termToCanonical (flattenMappings G)) (lowerS (stripS r)) = some c →
      c ≠ [] → c ∈ buildPropertySearchTerms R G ∧
        ∀ s ∈ (alookup (flattenMappings G) c).getD [], s ∈ buildPropertySearchTerms R G) := by
  constructor
  · intro hnone
    apply (mem_buildPropertySearchTerms R G _).2
    refine ⟨r, hr, hs, ?_⟩
    rw [termGroup_none hnone]
    exact Finset.mem_singleton_self _
  · intro c hc hne
    constructor
    · apply (mem_buildPropertySearchTerms R G _).2
      refine ⟨r, hr, hs, ?_⟩
      rw [termGroup_some hc hne]
      exact Finset.mem_insert_self _ _
    · intro s hsyn
      apply (mem_buildPropertySearchTerms R G _).2
      refine ⟨r, hr, hs, ?_⟩
      rw [termGroup_some hc hne]
      exact Finset.mem_insert_of_mem (List.mem_toFinset.2 hsyn)

theorem expansion_superset_witness :
    pstr "tg" ∈ [pstr "tg"] ∧ stripS (pstr "tg") ≠ [] ∧
      ((alookup (termToCanonical (flattenMappings exSynData)) (lowerS (stripS (pstr "tg"))) = none →
        lowerS (stripS (pstr "tg")) ∈ buildPropertySearchTerms [pstr "tg"] exSynData) ∧
      (∀ c, alookup (termToCanonical (flattenMappings exSynData)) (lowerS (stripS (pstr "tg"))) = some c →
        c ≠ [] → c ∈ buildPropertySearchTerms [pstr "tg"] exSynData ∧
          ∀ s ∈ (alookup (flattenMappings exSynData) c).getD [],
            s ∈ buildPropertySearchTerms [pstr "tg"] exSynData)) :=
  ⟨by decide, by decide,
    expansion_superset exSynData [pstr "tg"] (pstr "tg") (by decide) (by decide)⟩

/-- C3: re-expanding the elements of an already-expanded set never shrinks
it. -/
theorem reexpansion_superset (R : List PyStr) (G : SynData) :
    buildPropertySearchTerms R G ⊆
      buildPropertySearchTerms (buildPropertySearchTerms R G).toList G := by
  intro t ht
  rcases (mem_buildPropertySearchTerms R G t).1 ht with ⟨r, hrR, hstrip, hgrp⟩
  have hself : ∀ m, m ∈ buildPropertySearchTerms R G → stripS m ≠ [] →
      t ∈ termGroup (flattenMappings G) (termToCanonical (flattenMappings G))
        (lowerS (stripS m)) →
      t ∈ buildPropertySearchTerms (buildPropertySearchTerms R G).toList G := by
    intro m hm hms hgr
    exact (mem_buildPropertySearchTerms _ G t).2 ⟨m, Finset.mem_toList.2 hm, hms, hgr⟩
  set req := lowerS (stripS r) with hreq
  have hreqstr : stripS req = req := by rw [hreq, stripS_lowerS, stripS_stripS]
  have hreqlow : lowerS req = req := by rw [hreq, lowerS_lowerS]
  have hreqne : req ≠ [] := by
    rw [hreq]
    intro h
    exact hstrip (List.map_eq_nil_iff.1 h)
  cases hidx : alookup (termToCanonical (flattenMappings G)) req with
  | none =>
    rw [termGroup_none hidx, Finset.mem_singleton] at hgrp
    subst hgrp
    apply hself req ht (by rw [hreqstr]; exact hreqne)
    rw [hreqstr, hreqlow, termGroup_none hidx]
    exact Finset.mem_singleton_self _
  | some c =>
    by_cases hc : c = []
    · subst hc
      rw [termGroup_empty hidx, Finset.mem_singleton] at hgrp
      subst hgrp
      apply hself req ht (by rw [hreqstr]; exact hreqne)
      rw [hreqstr, hreqlow, termGroup_empty hidx]
      exact Finset.mem_singleton_self _
    · rw [termGroup_some hidx hc] at hgrp
      obtain ⟨syns, hsy, hk⟩ :=
        termToCanonical_spec _ (flattenMappings_keys_nodup G) req c hidx
      rcases hk with hk | ⟨s, hsmem, hk⟩
      · have hcE : c ∈ buildPropertySearchTerms R G := by
          apply (mem_buildPropertySearchTerms R G c).2
          refine ⟨r, hrR, hstrip, ?_⟩
          rw [termGroup_some hidx hc]
          exact Finset.mem_insert_self _ _
        have hcstr : stripS c = c := by
          apply stripS_eq_self_of_lower
          rw [← hk]
          exact hreqstr
        apply hself c hcE (by rw [hcstr]; exact hc)
        rw [hcstr, ← hk, termGroup_some hidx hc]
        exact hgrp
      · have hsE : s ∈ buildPropertySearchTerms R G := by
          apply (mem_buildPropertySearchTerms R G s).2
          refine ⟨r, hrR, hstrip, ?_⟩
          rw [termGroup_some hidx hc]
          apply Finset.mem_insert_of_mem
          rw [hsy]
          simp only [Option.getD_some]
          exact List.mem_toFinset.2 hsmem
        have hsstr : stripS s = s := by
          apply stripS_eq_self_of_lower
          rw [← hk]
          exact hreqstr
        have hsne : s ≠ [] := by
          intro h
          apply hreqne
          rw [hk, h]
          rfl
        apply hself s hsE (by rw [hsstr]; exact hsne)
        rw [hsstr, ← hk, termGroup_some hidx hc]
        exact hgrp

theorem reexpansion_superset_witness :
    pstr "Tg" ∈ buildPropertySearchTerms
      (buildPropertySearchTerms [pstr "tg"] exSynData).toList exSynData :=
  reexpansion_superset [pstr "tg"] exSynData (by decide)

/-- C7: each lowercase key of the index maps to exactly one canonical
(the key list has no duplicates), and a binding made while processing a
first batch of canonicals survives the processing of any later batch: a
later canonical referencing the same lowercase string never overwrites it. -/
theorem index_first_claim_wins (am1 am2 : List (PyStr × List PyStr)) (k c : PyStr)
    (h : alookup (termToCanonical am1) k = some c) :
    alookup (termToCanonical (am1 ++ am2)) k = some c ∧
      (keysOf (termToCanonical (am1 ++ am2))).Nodup := by
  constructor
  · unfold termToCanonical at h ⊢
    rw [List.foldl_append]
    exact foldl_indexStep_preserve am2 _ k c h
  · exact termToCanonical_keys_nodup _

theorem index_first_claim_wins_witness :
    alookup (termToCanonical ([(pstr "Tg", [pstr "glass transition"])] ++
        [(pstr "TGA", [pstr "Tg", pstr "tga"])])) (pstr "tg") = some (pstr "Tg") ∧
      (keysOf (termToCanonical ([(pstr "Tg", [pstr "glass transition"])] ++
        [(pstr "TGA", [pstr "Tg", pstr "tga"])]))).Nodup :=
  index_first_claim_wins [(pstr "Tg", [pstr "glass transition"])]
    [(pstr "TGA", [pstr "Tg", pstr "tga"])] (pstr "tg") (pstr "Tg") (by decide)

/- ### Whole-word matching and the triple-detection regexes -/

/-- Is the character at index `i` a word character (out of range counts as
not a word character, as at the ends of a regex subject)? -/
def wordCharAt (s : PyStr) (i : Nat) : Bool :=
  match s.get? i with
  | some c => isWordChar c
  | none => false

/-- Word-character-ness just before position `i` (position 0 has nothing
before it). -/
def wcBefore (s : PyStr) (i : Nat) : Bool :=
  match i with
  | 0 => false
  | j + 1 => wordCharAt s j

/-- `\b` of `re` at position `i`: word-character-ness changes there. -/
def boundaryAt (s : PyStr) (i : Nat) : Bool := wcBefore s i != wordCharAt s i

/-- The slice of `s` of the length of `t` at position `i` equals `t`. -/
def sliceEq (s : PyStr) (i : Nat) (t : PyStr) : Bool := (s.drop i).take t.length == t

/-- Case-insensitive version of `sliceEq` (regexes compiled with `re.I`). -/
def sliceEqCI (s : PyStr) (i : Nat) (t : PyStr) : Bool :=
  lowerS ((s.drop i).take t.length) == lowerS t

/-- A whole-word occurrence `\b t \b` of the literal `t` at position `i`. -/
def matchAt (s t : PyStr) (i : Nat) : Bool :=
  sliceEq s i t && boundaryAt s i && boundaryAt s (i + t.length)

/-- `re.search` for the pattern `\b re.escape(t) \b`. -/
def existsMatch (s t : PyStr) : Bool :=
  (List.range (s.length + 1)).any (fun i => matchAt s t i)

/-- `_find_whole_word(sentence, terms)`: both the sentence and each term are
lowercased before matching; the hits keep the terms as given. -/
def findWholeWord (sentence : PyStr) (terms : List PyStr) : List PyStr :=
  terms.filter (fun term => existsMatch (lowerS sentence) (lowerS term))

/-- The fixed lexicon `POLYMER_TERMS`. -/
def polymerTerms : List PyStr :=
  [pstr "polymer", pstr "polymers", pstr "macromolecule", pstr "macromolecules",
   pstr "copolymer", pstr "copolymers", pstr "homopolymer", pstr "homopolymers",
   pstr "oligomer", pstr "oligomers"]

/-- The alternatives of `poly(?:vinyl|styrene|...)` in pattern order, with
the common stem `poly` attached. -/
def polyClassWords : List PyStr :=
  [pstr "polyvinyl", pstr "polystyrene", pstr "polyethylene", pstr "polypropylene",
   pstr "polyester", pstr "polyamide", pstr "polyether", pstr "polyurethane",
   pstr "polyimide", pstr "polysaccharide"]

/-- One attempted match of `\bpoly\s*\(\s*([^)]+)\)` (case-insensitive) at
position `i`: the hit string `poly(<group 1 stripped>)` and the end of the
match.  `\s*` and `[^)]+` are greedy: `[^)]+` reaches the first closing
parenthesis, and when everything between the parentheses is whitespace the
inner `\s*` backtracks to leave its last character to `[^)]+`. -/
def polyParenMatchAt (s : PyStr) (i : Nat) : Option (PyStr × Nat) :=
  if boundaryAt s i && sliceEqCI s i (pstr "poly") then
    let jp := i + 4 + ((s.drop (i + 4)).takeWhile isSpaceC).length
    if s.get? jp == some 40 then
      let a := jp + 1
      let u := a + ((s.drop a).takeWhile (fun c => !(c == 41))).length
      if u < s.length ∧ a < u then
        let w := a + ((s.drop a).takeWhile isSpaceC).length
        let grp := if w < u then (s.drop w).take (u - w) else (s.drop (u - 1)).take 1
        some (pstr "poly(" ++ stripS grp ++ pstr ")", u + 1)
      else none
    else none
  else none

/-- One attempted match of `\bpoly(?:vinyl|...)\b` (case-insensitive) at
position `i`: the first alternative that matches with a word boundary after
it wins; group 1 is the matched text as it stands in the sentence. -/
def polyClassMatchAt (s : PyStr) (i : Nat) : Option (PyStr × Nat) :=
  if boundaryAt s i then
    match polyClassWords.find? (fun word =>
      sliceEqCI s i word && boundaryAt s (i + word.length)) with
    | some word => some ((s.drop i).take word.length, i + word.length)
    | none => none
  else none

/-- `re.finditer`: scan positions left to right, on a match continue at its
end (every match of the two polymer patterns is non-empty).  The fuel is the
number of positions still to try; `scanMatches f n 0 (n + 1)` visits all
positions `0..n`. -/
def scanMatches (f : Nat → Option (PyStr × Nat)) (n : Nat) : Nat → Nat → List PyStr
  | _, 0 => []
  | i, fuel + 1 =>
    if n < i then []
    else
      match f i with
      | some (hit, e) => hit :: scanMatches f n (max e (i + 1)) fuel
      | none => scanMatches f n (i + 1) fuel

/-- `_regex_poly_patterns(sentence)`: the hits of the `poly(...)` pattern
followed by the hits of the `poly`-class pattern. -/
def regexPolyPatterns (sentence : PyStr) : List PyStr :=
  scanMatches (polyParenMatchAt sentence) sentence.length 0 (sentence.length + 1) ++
    scanMatches (polyClassMatchAt sentence) sentence.length 0 (sentence.length + 1)

/-- `d` consecutive digits at position `i` (with `d ≥ 1`), entirely inside
the string. -/
def digitsAt (s : PyStr) (i d : Nat) : Bool :=
  decide (1 ≤ d) && ((s.drop i).take d).length == d && ((s.drop i).take d).all isDigit

/-- `w` consecutive whitespace characters at position `q`, entirely inside
the string. -/
def wsAt (s : PyStr) (q w : Nat) : Bool :=
  ((s.drop q).take w).length == w && ((s.drop q).take w).all isSpaceC

/-- The single-token unit alternatives of `NUM_UNIT`, in pattern order
(`Pa\s*s` is handled separately). -/
def unitAlts : List PyStr :=
  [pstr "°c", pstr "°C", pstr "K", pstr "GPa", pstr "MPa", pstr "kDa", pstr "Da",
   pstr "kg/mol", pstr "g/mol", pstr "Pa·s", pstr "wt%", pstr "mol%"]

/-- Some unit alternative matches at position `r` (case-insensitively) with
a word boundary after it; the `Pa\s*s` alternative allows any whitespace run
between `Pa` and `s`. -/
def unitWithBoundaryAt (s : PyStr) (r : Nat) : Bool :=
  unitAlts.any (fun u => sliceEqCI s r u && boundaryAt s (r + u.length)) ||
    (sliceEqCI s r (pstr "Pa") &&
      (List.range (s.length + 1)).any (fun w =>
        wsAt s (r + 2) w && sliceEqCI s (r + 2 + w) (pstr "s") &&
          boundaryAt s (r + 2 + w + 1)))

/-- After the numeric part ends at `q`: `\s*` then a unit then `\b`. -/
def unitAfter (s : PyStr) (q : Nat) : Bool :=
  (List.range (s.length + 1)).any (fun w => wsAt s q w && unitWithBoundaryAt s (q + w))

/-- `bool(NUM_UNIT.search(sentence))`:
`(?i)\b\d+(\.\d+)?\s*(°c|°C|K|GPa|MPa|kDa|Da|kg/mol|g/mol|Pa·s|Pa\s*s|wt%|mol%)\b`
holds somewhere.  `re.search` reports whether any decomposition matches, so
the existential over positions and lengths is exactly its boolean value. -/
def numUnitExists (s : PyStr) : Bool :=
  (List.range (s.length + 1)).any (fun i =>
    boundaryAt s i && (List.range (s.length + 1)).any (fun d =>
      digitsAt s i d &&
        (unitAfter s (i + d) ||
          (s.get? (i + d) == some 46 && (List.range (s.length + 1)).any (fun f =>
            digitsAt s (i + d + 1) f && unitAfter s (i + d + 1 + f))))))

/-- `bool(NUM_ONLY.search(sentence))`: `\b\d+(\.\d+)?\b` holds somewhere. -/
def numOnlyExists (s : PyStr) : Bool :=
  (List.range (s.length + 1)).any (fun i =>
    boundaryAt s i && (List.range (s.length + 1)).any (fun d =>
      digitsAt s i d &&
        (boundaryAt s (i + d) ||
          (s.get? (i + d) == some 46 && (List.range (s.length + 1)).any (fun f =>
            digitsAt s (i + d + 1) f && boundaryAt s (i + d + 1 + f))))))

/-- `has_num` of `_has_valid_triple`: a unit-bearing number or, failing
that, a bare number. -/
def hasNum (sentence : PyStr) : Bool := numUnitExists sentence || numOnlyExists sentence

/-- `_has_valid_triple(sentence, property_terms)` with its three early
returns. -/
def hasValidTriple (sentence : PyStr) (propertyTerms : List PyStr) : Bool :=
  if (findWholeWord sentence polymerTerms ++ regexPolyPatterns sentence).isEmpty then
    false
  else if (findWholeWord sentence propertyTerms).isEmpty then
    false
  else if !hasNum sentence then
    false
  else
    true

/- ### The sentence segmenter -/

/-- `re.sub(r"\s+", " ", text)`: every maximal whitespace run becomes one
space.  The flag records whether the previous character was whitespace. -/
def normWsAux : Bool → PyStr → PyStr
  | _, [] => []
  | inWs, c :: rest =>
    if isSpaceC c then
      if inWs then normWsAux true rest else 32 :: normWsAux true rest
    else c :: normWsAux false rest

/-- Whitespace normalization of `_split_into_sentences`. -/
def normWs (text : PyStr) : PyStr := normWsAux false text

/-- Is the head of the (reversed) accumulator a sentence-ending character? -/
def headIsSentEnd (acc : PyStr) : Bool :=
  match acc with
  | p :: _ => isSentEnd p
  | [] => false

/-- Is the first remaining non-whitespace character a capital letter? -/
def headIsUpper (l : PyStr) : Bool :=
  match l with
  | u :: _ => isUpper u
  | [] => false

/-- `re.split(r"(?<=[.!?])\s+(?=[A-Z])", text)` on whitespace-normalized
text: a split happens at a whitespace character whose predecessor is a
sentence ender and whose following non-whitespace character is a capital.
The caller normalizes the text first, so every whitespace run has length
one and consuming the single space is the regex's consumption of the run;
on un-normalized text the split points are the same and fragments can only
differ by leading whitespace, which the caller strips off anyway. -/
def splitAux (acc : PyStr) : PyStr → List PyStr
  | [] => [acc.reverse]
  | c :: rest =>
    if isSpaceC c && headIsSentEnd acc && headIsUpper (rest.dropWhile isSpaceC) then
      acc.reverse :: splitAux [] rest
    else
      splitAux (c :: acc) rest

/-- `_split_into_sentences(text)`. -/
def splitIntoSentences (text : PyStr) : List PyStr :=
  if text = [] then []
  else
    ((splitAux [] (normWs text)).filter (fun p => 15 < (stripS p).length)).map stripS

/- ### The per-paper decision and the corpus filter -/

/-- The loop of `is_paper_with_property_triples`: return on the first
qualifying sentence. -/
def isPaperAux (propertyTerms : List PyStr) : List PyStr → Bool × PyStr
  | [] => (false, pstr "no matching (polymer, property, value) triples")
  | sent :: rest =>
    if hasValidTriple sent propertyTerms then
      (true, pstr "found (polymer, property, value) triple")
    else
      isPaperAux propertyTerms rest

/-- `is_paper_with_property_triples(full_text, property_terms)`. -/
def isPaperWithPropertyTriples (fullText : PyStr) (propertyTerms : List PyStr) :
    Bool × PyStr :=
  isPaperAux propertyTerms (splitIntoSentences fullText)

/-- The structured parse of one document as the collaborator returns it:
`meta["title"]`, the section texts in order, and the `content` field of each
table.  Modelled from the spec: the collaborator's contract is
`parse(path) -> {meta: {title, ...}, sections: {name -> text}, tables:
[{content: text, ...}]}`, raising on malformed input; the fields that
`filter_papers` reads are the title string, the section name/text pairs and
the table content strings. -/
structure ParsedDoc where
  title : PyStr
  sections : List (PyStr × PyStr)
  tables : List PyStr

/-- `" ".join(parts)`. -/
def joinSpace (parts : List PyStr) : PyStr := List.intercalate [32] parts

/-- `_build_full_text(meta, sections, tables)`: the title, every section
whose text is truthy and strips to something non-empty, then every table
content stripped, when non-empty. -/
def buildFullText (d : ParsedDoc) : PyStr :=
  joinSpace ([d.title] ++
    (d.sections.filter (fun sec => !sec.2.isEmpty && !(stripS sec.2).isEmpty)).map
      (fun sec => sec.2) ++
    (d.tables.map stripS).filter (fun content => !content.isEmpty))

/-- The search-term set `filter_papers` uses: the expansion, or, when it is
empty, `{t.lower() for t in property_terms if t.strip()}`. -/
def filterSearchTerms (propertyTerms : List PyStr) (synonymsData : SynData) :
    Finset PyStr :=
  if buildPropertySearchTerms propertyTerms synonymsData = ∅ then
    ((propertyTerms.filter (fun t => !(stripS t).isEmpty)).map lowerS).toFinset
  else
    buildPropertySearchTerms propertyTerms synonymsData

/-- The per-document body of the `filter_papers` loop: a document whose
parse raises lands in the failing list with reason
`"parse error: <message>"` and the loop continues; otherwise the paper is
scored and appended to the passing or failing accumulator. -/
def filterStep {α : Type} (parse : α → Except PyStr ParsedDoc) (searchTerms : List PyStr)
    (acc : List α × List (α × PyStr)) (path : α) : List α × List (α × PyStr) :=
  match parse path with
  | Except.error e => (acc.1, acc.2 ++ [(path, pstr "parse error: " ++ e)])
  | Except.ok d =>
    if (isPaperWithPropertyTriples (buildFullText d) searchTerms).1 then
      (acc.1 ++ [path], acc.2)
    else
      (acc.1, acc.2 ++ [(path, (isPaperWithPropertyTriples (buildFullText d) searchTerms).2)])

/-- The filtering core of `filter_papers(folder, property_terms, ...)`: the
documents in order, the parse as the external collaborator (modelled from
the spec, it raises on malformed input), the requested property terms and
the synonym data.  Returns the passing list and the failing list with
reasons. -/
def filterPapers {α : Type} (files : List α) (parse : α → Except PyStr ParsedDoc)
    (propertyTerms : List PyStr) (synonymsData : SynData) :
    List α × List (α × PyStr) :=
  files.foldl
    (filterStep parse ((filterSearchTerms propertyTerms synonymsData).sort (· ≤ ·)))
    ([], [])

/-- Whether a document passes, as a predicate on one document alone. -/
def paperPasses {α : Type} (parse : α → Except PyStr ParsedDoc)
    (searchTerms : List PyStr) (g : α) : Bool :=
  match parse g with
  | Except.ok d => (isPaperWithPropertyTriples (buildFullText d) searchTerms).1
  | Except.error _ => false

/-- The reason recorded for a document that does not pass. -/
def paperFailReason {α : Type} (parse : α → Except PyStr ParsedDoc)
    (searchTerms : List PyStr) (g : α) : PyStr :=
  match parse g with
  | Except.error e => pstr "parse error: " ++ e
  | Except.ok d => (isPaperWithPropertyTriples (buildFullText d) searchTerms).2

/- ### Claims about the triple detector -/

/-- C4: the detector is exactly the conjunction of its three signals — it is
false whenever the polymer, property or value signal is absent, whatever the
other two do, and true only when all three co-occur. -/
theorem triple_needs_all_signals (s : PyStr) (T : List PyStr) :
    hasValidTriple s T = true ↔
      ((findWholeWord s polymerTerms ++ regexPolyPatterns s) ≠ [] ∧
        findWholeWord s T ≠ [] ∧ hasNum s = true) := by
  unfold hasValidTriple
  by_cases h1 : (findWholeWord s polymerTerms ++ regexPolyPatterns s).isEmpty = true
  · rw [if_pos h1]
    simp [List.isEmpty_iff.1 h1]
  · rw [if_neg h1]
    have h1n : (findWholeWord s polymerTerms ++ regexPolyPatterns s) ≠ [] := by
      simpa [List.isEmpty_iff] using h1
    by_cases h2 : (findWholeWord s T).isEmpty = true
    · rw [if_pos h2]
      simp [List.isEmpty_iff.1 h2]
    · rw [if_neg h2]
      have h2n : findWholeWord s T ≠ [] := by
        simpa [List.isEmpty_iff] using h2
      by_cases h3 : hasNum s = true
      · have : (!hasNum s) = false := by rw [h3]; rfl
        rw [this]
        simp [h1n, h2n, h3]
      · have h3f : hasNum s = false := by
          cases hn : hasNum s
          · rfl
          · exact absurd hn h3
        have : (!hasNum s) = true := by rw [h3f]; rfl
        rw [this]
        simp [h3f]

/-- C9: detection is invariant under lowercasing the property-term set,
because `_find_whole_word` lowercases both sentence and term. -/
theorem triple_case_insensitive (s : PyStr) (T : List PyStr) :
    hasValidTriple s T = hasValidTriple s (T.map lowerS) := by
  have hmap : findWholeWord s (T.map lowerS) = (findWholeWord s T).map lowerS := by
    unfold findWholeWord
    rw [List.filter_map]
    congr 1
    apply List.filter_congr
    intro t _
    simp only [Function.comp_apply, lowerS_lowerS]
  have hempty : ∀ l : List PyStr, (l.map lowerS).isEmpty = l.isEmpty := by
    intro l
    cases l <;> rfl
  unfold hasValidTriple
  rw [hmap, hempty]

/-- C10: the unit-aware pattern is not subsumed by the bare-number fallback:
in the sentence `105kDa` the number stands against the unit with no space,
`NUM_UNIT` matches, `NUM_ONLY` does not, and the value signal holds. -/
theorem unit_pattern_not_subsumed :
    numUnitExists (pstr "105kDa") = true ∧ numOnlyExists (pstr "105kDa") = false ∧
      hasNum (pstr "105kDa") = true := by
  refine ⟨by decide, by decide, by decide⟩

/- ### Claims about the segmenter and the per-paper decision -/

theorem mem_normWsAux (b : Bool) (l : PyStr) (x : Nat) (h : x ∈ normWsAux b l) :
    x = 32 ∨ x ∈ l := by
  induction l generalizing b with
  | nil =>
    rw [normWsAux] at h
    cases h
  | cons c rest ih =>
    rw [normWsAux] at h
    by_cases hc : isSpaceC c = true
    · rw [if_pos hc] at h
      cases b with
      | true =>
        simp only [if_true] at h
        rcases ih true h with h1 | h1
        · exact Or.inl h1
        · exact Or.inr (List.mem_cons_of_mem _ h1)
      | false =>
        simp only [Bool.false_eq_true, if_false] at h
        rcases List.mem_cons.1 h with h1 | h1
        · exact Or.inl h1
        · rcases ih true h1 with h2 | h2
          · exact Or.inl h2
          · exact Or.inr (List.mem_cons_of_mem _ h2)
    · rw [if_neg hc] at h
      rcases List.mem_cons.1 h with h1 | h1
      · exact Or.inr (h1 ▸ List.mem_cons_self _ _)
      · rcases ih false h1 with h2 | h2
        · exact Or.inl h2
        · exact Or.inr (List.mem_cons_of_mem _ h2)

theorem splitAux_no_sentEnd (l acc : PyStr) (hl : ∀ x ∈ l, isSentEnd x = false)
    (hacc : ∀ x ∈ acc, isSentEnd x = false) : (splitAux acc l).length = 1 := by
  induction l generalizing acc with
  | nil => rfl
  | cons c rest ih =>
    have hcond : headIsSentEnd acc = false := by
      cases acc with
      | nil => rfl
      | cons p ps => exact hacc p (List.mem_cons_self _ _)
    rw [splitAux, hcond]
    simp only [Bool.and_false, Bool.false_and, Bool.false_eq_true, if_false]
    apply ih (c :: acc) (fun x hx => hl x (List.mem_cons_of_mem _ hx))
    intro x hx
    rcases List.mem_cons.1 hx with h1 | h1
    · exact h1 ▸ hl c (List.mem_cons_self _ _)
    · exact hacc x h1

/-- C5: segmenting the empty string yields nothing; text free of `.`, `!`
and `?` yields at most one fragment; and every returned fragment still has
more than 15 characters after trimming. -/
theorem segmenter_properties (t : PyStr) :
    splitIntoSentences [] = [] ∧
      ((∀ x ∈ t, isSentEnd x = false) → (splitIntoSentences t).length ≤ 1) ∧
      (∀ p ∈ splitIntoSentences t, 15 < (stripS p).length) := by
  refine ⟨rfl, ?_, ?_⟩
  · intro hnp
    unfold splitIntoSentences
    by_cases ht : t = []
    · rw [if_pos ht]
      simp
    · rw [if_neg ht, List.length_map]
      have h1 : (splitAux [] (normWs t)).length = 1 := by
        apply splitAux_no_sentEnd
        · intro x hx
          rcases mem_normWsAux false t x hx with h | h
          · rw [h]
            rfl
          · exact hnp x h
        · intro x hx
          cases hx
      calc (List.filter (fun p => 15 < (stripS p).length) (splitAux [] (normWs t))).length
          ≤ (splitAux [] (normWs t)).length := List.length_filter_le _ _
        _ = 1 := h1
  · intro p hp
    unfold splitIntoSentences at hp
    by_cases ht : t = []
    · rw [if_pos ht] at hp
      cases hp
    · rw [if_neg ht] at hp
      rw [List.mem_map] at hp
      obtain ⟨q, hq, hpq⟩ := hp
      rw [List.mem_filter] at hq
      have h15 : 15 < (stripS q).length := by simpa using hq.2
      rw [← hpq, stripS_stripS]
      exact h15

theorem isPaperAux_spec (T : List PyStr) (l : List PyStr) :
    ((isPaperAux T l).1 = true ↔ ∃ s ∈ l, hasValidTriple s T = true) ∧
      ((∀ s ∈ l, hasValidTriple s T = false) →
        isPaperAux T l = (false, pstr "no matching (polymer, property, value) triples")) := by
  induction l with
  | nil =>
    constructor
    · simp [isPaperAux]
    · intro _
      rfl
  | cons s rest ih =>
    by_cases hs : hasValidTriple s T = true
    · rw [isPaperAux, if_pos hs]
      refine ⟨⟨fun _ => ⟨s, List.mem_cons_self _ _, hs⟩, fun _ => rfl⟩, ?_⟩
      intro hall
      rw [hall s (List.mem_cons_self _ _)] at hs
      cases hs
    · rw [isPaperAux, if_neg hs]
      constructor
      · rw [ih.1]
        constructor
        · rintro ⟨x, hx, hxt⟩
          exact ⟨x, List.mem_cons_of_mem _ hx, hxt⟩
        · rintro ⟨x, hx, hxt⟩
          rcases List.mem_cons.1 hx with h1 | h1
          · exact absurd (h1 ▸ hxt) hs
          · exact ⟨x, h1, hxt⟩
      · intro hall
        exact ih.2 (fun x hx => hall x (List.mem_cons_of_mem _ hx))

/-- C6: a paper passes exactly when some sentence of its segmented text
carries a triple (the loop returns at the first such sentence), and when no
sentence does, the result is `false` with exactly the reason
`no matching (polymer, property, value) triples`. -/
theorem paper_passes_iff (fullText : PyStr) (T : List PyStr) :
    ((isPaperWithPropertyTriples fullText T).1 = true ↔
      ∃ s ∈ splitIntoSentences fullText, hasValidTriple s T = true) ∧
      ((∀ s ∈ splitIntoSentences fullText, hasValidTriple s T = false) →
        isPaperWithPropertyTriples fullText T =
          (false, pstr "no matching (polymer, property, value) triples")) :=
  isPaperAux_spec T (splitIntoSentences fullText)

/- ### Claim about the corpus filter loop -/

theorem filterStep_eq {α : Type} (parse : α → Except PyStr ParsedDoc)
    (st : List PyStr) (acc : List α × List (α × PyStr)) (f : α) :
    filterStep parse st acc f =
      (acc.1 ++ if paperPasses parse st f then [f] else [],
       acc.2 ++ if paperPasses parse st f then [] else [(f, paperFailReason parse st f)]) := by
  unfold filterStep paperPasses paperFailReason
  cases hp : parse f with
  | error e => simp
  | ok d =>
    by_cases hq : (isPaperWithPropertyTriples (buildFullText d) st).1 = true
    · simp [hq]
    · simp [hq]

theorem foldl_filterStep {α : Type} (parse : α → Except PyStr ParsedDoc)
    (st : List PyStr) (files : List α) (a : List α) (b : List (α × PyStr)) :
    files.foldl (filterStep parse st) (a, b) =
      (a ++ files.filter (paperPasses parse st),
       b ++ (files.filter (fun g => !paperPasses parse st g)).map
         (fun g => (g, paperFailReason parse st g))) := by
  induction files generalizing a b with
  | nil => simp
  | cons f rest ih =>
    rw [List.foldl_cons, filterStep_eq, ih]
    by_cases hf : paperPasses parse st f = true
    · simp [hf, List.filter_cons]
    · simp [hf, List.filter_cons]

/-- C8: a document whose parse raises is recorded in the failing list with
the reason `parse error: <message>`, and the batch is unaffected: the
passing and failing lists are exactly the per-document outcomes of every
file in order, so one failure is terminal for that document only. -/
theorem parse_error_isolated {α : Type} (files : List α)
    (parse : α → Except PyStr ParsedDoc) (P : List PyStr) (D : SynData) (f : α)
    (e : PyStr) (hf : f ∈ files) (he : parse f = Except.error e) :
    (f, pstr "parse error: " ++ e) ∈ (filterPapers files parse P D).2 ∧
      (filterPapers files parse P D).1 =
        files.filter
          (paperPasses parse ((filterSearchTerms P D).sort (· ≤ ·))) ∧
      (filterPapers files parse P D).2 =
        (files.filter
          (fun g => !paperPasses parse ((filterSearchTerms P D).sort (· ≤ ·)) g)).map
          (fun g => (g, paperFailReason parse ((filterSearchTerms P D).sort (· ≤ ·)) g)) := by
  have hchar := foldl_filterStep parse ((filterSearchTerms P D).sort (· ≤ ·)) files [] []
  unfold filterPapers
  rw [hchar]
  refine ⟨?_, by simp, by simp⟩
  simp only [List.nil_append]
  apply List.mem_map.2
  refine ⟨f, List.mem_filter.2 ⟨hf, ?_⟩, ?_⟩
  · unfold paperPasses
    rw [he]
    rfl
  · unfold paperFailReason
    rw [he]

/-- A two-document corpus whose first parse raises: used to instantiate the
parse-error-isolation theorem. -/
def exParse : Nat → Except PyStr ParsedDoc := fun n =>
  if n = 0 then Except.error (pstr "boom") else Except.ok ⟨[], [], []⟩

theorem parse_error_isolated_witness :
    (0, pstr "parse error: " ++ pstr "boom") ∈
        (filterPapers [0, 1] exParse [pstr "tg"] exSynData).2 ∧
      (filterPapers [0, 1] exParse [pstr "tg"] exSynData).1 =
        List.filter
          (paperPasses exParse ((filterSearchTerms [pstr "tg"] exSynData).sort (· ≤ ·)))
          [0, 1] ∧
      (filterPapers [0, 1] exParse [pstr "tg"] exSynData).2 =
        (List.filter
          (fun g => !paperPasses exParse
            ((filterSearchTerms [pstr "tg"] exSynData).sort (· ≤ ·)) g) [0, 1]).map
          (fun g =>
            (g, paperFailReason exParse
              ((filterSearchTerms [pstr "tg"] exSynData).sort (· ≤ ·)) g)) :=
  parse_error_isolated [0, 1] exParse [pstr "tg"] exSynData 0 (pstr "boom")
    (by decide) (by rfl)
